import Mathlib

/-!
# Verification of the day-5 interval-remapping pipeline

Shallow embedding of `src/day5/main.py` (Advent of Code 2023, day 5).

The Python module represents one category-to-category mapping as an
unbalanced binary search tree of `(range, destination_start)` pairs
(`CategoryNode` / `CategoryTree`), composes seven such stages in an
`Almanac`, and answers minimum-location queries either over a flat list
of individual seeds or over `(start, length)` seed-range pairs by
enumerating every seed in every range.

Embedding conventions:
* Python `range(a, b)` (step 1) is the half-open integer interval
  `[a, b)`; membership `n in range(a, b)` is `a ≤ n ∧ n < b`.
* `Optional[CategoryNode]` (the tree root and each child pointer) is one
  inductive `CategoryTree` with a `leaf` constructor for `None`.
* The `seed_to_location` memoisation dict is an association list that is
  consulted before computing and prepended to after computing, exactly
  mirroring the `if seed in dict` / `dict[seed] = location` pair.
* A Python expression that raises an unhandled exception is modelled by
  `Option.none`: `min()` over an empty generator (`ValueError`) and the
  failing tuple-unpacking of the trailing one-element chunk produced by
  `chunk(seeds, 2)` on an odd-length list are the two failure points.
-/

/-- One mapping of `CategoryTree`: Python's `Mapping = tuple[range, int]`,
a source interval `range(start, stop)` together with a destination start. -/
structure Mapping where
  start : Int
  stop : Int
  dest : Int
deriving DecidableEq, Repr

/-- `v` lies in the mapping's source interval: Python `number in self.interval`. -/
def Mapping.containsPt (m : Mapping) (v : Int) : Prop :=
  m.start ≤ v ∧ v < m.stop

instance (m : Mapping) (v : Int) : Decidable (m.containsPt v) := by
  unfold Mapping.containsPt; infer_instance

/-- The source interval is non-empty, i.e. the original `(start, length)`
tuple had positive length. -/
def Mapping.posLen (m : Mapping) : Prop := m.start < m.stop

instance (m : Mapping) : Decidable m.posLen := by
  unfold Mapping.posLen; infer_instance

/-- Two mappings' source intervals are disjoint (as half-open intervals). -/
def DisjointM (a b : Mapping) : Prop := a.stop ≤ b.start ∨ b.stop ≤ a.start

instance (a b : Mapping) : Decidable (DisjointM a b) := by
  unfold DisjointM; infer_instance

/-- `CategoryNode`/`CategoryTree` of the source, fused: `leaf` stands for
Python's `None` (absent root or absent child).  A node's BST key is
`interval.start` (`self.key = interval.start` in `CategoryNode.__init__`). -/
inductive CategoryTree where
  | leaf : CategoryTree
  | node : CategoryTree → Mapping → CategoryTree → CategoryTree
deriving DecidableEq, Repr

namespace CategoryTree

/-- `CategoryTree.add_mapping` + `CategoryNode.add_child`: standard BST
insertion keyed on `interval.start`; ties (`node.key < self.key` false)
go right; an empty tree gets the node as root. -/
def add_mapping : CategoryTree → Mapping → CategoryTree
  | leaf, m => node leaf m leaf
  | node l m0 r, m =>
    if m.start < m0.start then node (add_mapping l m) m0 r
    else node l m0 (add_mapping r m)

/-- `CategoryTree.map` + `CategoryNode.map`: if the number lies in this
node's interval, translate it; otherwise descend towards the key;
a missing child (or empty tree) returns the number unchanged. -/
def map : CategoryTree → Int → Int
  | leaf, v => v
  | node l m r, v =>
    if m.containsPt v then m.dest + v - m.start
    else if v < m.start then map l v
    else if m.start < v then map r v
    else v

/-- Build a tree by inserting the mappings left to right, as the
`extract_category_map` loop does with repeated `add_mapping` calls. -/
def build (ms : List Mapping) : CategoryTree :=
  ms.foldl add_mapping leaf

/-- In-order contents of the tree. -/
def toList : CategoryTree → List Mapping
  | leaf => []
  | node l m r => toList l ++ m :: toList r

/-- BST invariant on keys (`interval.start`), with duplicates to the right,
matching the strict `node.key < self.key` test of `add_child`. -/
def BST : CategoryTree → Prop
  | leaf => True
  | node l m r =>
    (∀ x ∈ toList l, x.start < m.start) ∧ (∀ x ∈ toList r, m.start ≤ x.start)
      ∧ BST l ∧ BST r

end CategoryTree

/-- `chunk(seq, 2)` followed by the `for start, size in pairs` unpacking of
`find_lowest_location_number_for_seed_ranges`: chunks of size 2 become
pairs, and the trailing one-element chunk of an odd-length list fails to
unpack (an unhandled `ValueError`), modelled as `none`. -/
def chunk_pairs : List Int → Option (List (Int × Int))
  | [] => some []
  | [_] => none
  | a :: b :: rest => (chunk_pairs rest).map (fun ps => (a, b) :: ps)

/-- The seeds enumerated by `range(start, start + size)`: the integers
`start, start+1, …, start+size-1` (empty when `size ≤ 0`). -/
def range_seeds (start size : Int) : List Int :=
  (List.range size.toNat).map (fun i => start + Int.ofNat i)

/-- Python `min` over a materialised generator: `none` on the empty list
(where Python raises `ValueError`). -/
def listMin : List Int → Option Int
  | [] => none
  | x :: xs =>
    match listMin xs with
    | none => some x
    | some y => some (min x y)

/-- The `Almanac`: seven stage trees fixed by `__init__` plus the
`seed_to_location` memoisation dict (assoc list, newest entry first). -/
structure Almanac where
  seed_to_soil : CategoryTree
  soil_to_fertilizer : CategoryTree
  fertilizer_to_water : CategoryTree
  water_to_light : CategoryTree
  light_to_temperature : CategoryTree
  temperature_to_humidity : CategoryTree
  humidity_to_location : CategoryTree
  seed_to_location : List (Int × Int)
deriving DecidableEq, Repr

/-- `Almanac.__init__`: stores the seven trees and starts with an empty
`seed_to_location` cache. -/
def mkAlmanac (t1 t2 t3 t4 t5 t6 t7 : CategoryTree) : Almanac :=
  ⟨t1, t2, t3, t4, t5, t6, t7, []⟩

/-- Dict membership test plus access, `seed in self.seed_to_location`
then `self.seed_to_location[seed]`, on the assoc-list model. -/
def cacheLookup : List (Int × Int) → Int → Option Int
  | [], _ => none
  | (k, w) :: rest, s => if k = s then some w else cacheLookup rest s

namespace Almanac

/-- The cache-free computation inside `find_location_for_seed`: the seed
folded through the seven stage maps in their fixed order. -/
def pureLocation (a : Almanac) (seed : Int) : Int :=
  a.humidity_to_location.map
    (a.temperature_to_humidity.map
      (a.light_to_temperature.map
        (a.water_to_light.map
          (a.fertilizer_to_water.map
            (a.soil_to_fertilizer.map
              (a.seed_to_soil.map seed))))))

/-- `Almanac.find_location_for_seed`: answer from the cache when present,
otherwise fold the seed through the seven stages, record the result in
the cache, and return it.  The mutation of `self.seed_to_location` is
made explicit by returning the updated almanac. -/
def find_location_for_seed (a : Almanac) (seed : Int) : Int × Almanac :=
  match cacheLookup a.seed_to_location seed with
  | some loc => (loc, a)
  | none =>
    let soil := a.seed_to_soil.map seed
    let fertilizer := a.soil_to_fertilizer.map soil
    let water := a.fertilizer_to_water.map fertilizer
    let light := a.water_to_light.map water
    let temperature := a.light_to_temperature.map light
    let humidity := a.temperature_to_humidity.map temperature
    let location := a.humidity_to_location.map humidity
    (location, { a with seed_to_location := (seed, location) :: a.seed_to_location })

/-- The generator `(self.find_location_for_seed(seed) for seed in seeds)`,
materialised: the per-seed locations in order, threading the cache
mutations from call to call. -/
def locations_for_seeds (a : Almanac) : List Int → List Int × Almanac
  | [] => ([], a)
  | s :: rest =>
    let p := a.find_location_for_seed s
    let q := p.2.locations_for_seeds rest
    (p.1 :: q.1, q.2)

/-- `Almanac.find_lowest_location_number_for_individual_seeds`:
`min` over the per-seed locations (`none` models the `ValueError` that
`min` raises on an empty `seeds`). -/
def find_lowest_location_number_for_individual_seeds
    (a : Almanac) (seeds : List Int) : Option Int × Almanac :=
  let p := a.locations_for_seeds seeds
  (listMin p.1, p.2)

/-- `Almanac.find_lowest_location_number_for_seed_ranges`: chunk the flat
seeds list into `(start, size)` pairs (the outer `none` models the
unpacking failure on odd length), enumerate every seed of every
`range(start, start + size)`, and take the `min` of their locations
(inner `none` models `min`'s `ValueError` when every range is empty). -/
def find_lowest_location_number_for_seed_ranges
    (a : Almanac) (seeds : List Int) : Option (Option Int × Almanac) :=
  match chunk_pairs seeds with
  | none => none
  | some pairs =>
    let allSeeds := pairs.flatMap (fun p => range_seeds p.1 p.2)
    let q := a.locations_for_seeds allSeeds
    some (listMin q.1, q.2)

/-- Every memoised entry agrees with the cache-free seven-stage fold.
This holds for a freshly constructed almanac (empty cache) and is
preserved by every query. -/
def CacheOK (a : Almanac) : Prop :=
  ∀ p ∈ a.seed_to_location, p.2 = a.pureLocation p.1

end Almanac

/-- Modelled from the spec: the `Interval` of §3 — a half-open source span
`[start, start + len)` carrying the constant `offset` added to every value
inside it.  The source has no such standalone type for range mapping; it
exists only for the spec's `StageMap.map_ranges`, which `src/day5/main.py`
never implements (it enumerates seeds point-wise instead). -/
structure SpecInterval where
  start : Int
  len : Int
  offset : Int
deriving DecidableEq, Repr

/-- Modelled from the spec: the worklist splitting of `StageMap.map_ranges`
(§4.2), absent from the source.  A pending range `[s, s + n)` is split
against each interval in turn: the overlapping portion is emitted with the
interval's offset, and the uncovered prefix and suffix are re-enqueued
against the remaining intervals; a pending range overlapping no interval is
emitted unchanged (offset 0, the identity fallback).  Each output triple
`(pstart, plen, off)` records the pre-image sub-range `[pstart, pstart+plen)`
of the output range `[pstart+off, pstart+plen+off)`. -/
def split_pieces : List SpecInterval → Int → Int → List (Int × Int × Int)
  | [], s, n => [(s, n, 0)]
  | iv :: rest, s, n =>
    let lo := max s iv.start
    let hi := min (s + n) (iv.start + iv.len)
    if lo < hi then
      split_pieces rest s (lo - s) ++ (lo, hi - lo, iv.offset) :: split_pieces rest hi (s + n - hi)
    else
      split_pieces rest s n

/-- Modelled from the spec: `StageMap.map_ranges` (§4.2), absent from the
source — every input `(start, length)` range is partitioned by
`split_pieces` and each piece is shifted by the offset that applies to it. -/
def map_ranges (ivs : List SpecInterval) (rs : List (Int × Int)) : List (Int × Int) :=
  rs.flatMap (fun r => (split_pieces ivs r.1 r.2).map (fun p => (p.1 + p.2.2, p.2.1)))

/-! ## Basic lemmas about the list-level helpers -/

theorem listMin_eq_none {l : List Int} : listMin l = none ↔ l = [] := by
  cases l with
  | nil => simp [listMin]
  | cons x xs =>
    simp only [listMin]
    cases listMin xs <;> simp

theorem listMin_spec {l : List Int} {r : Int} (h : listMin l = some r) :
    r ∈ l ∧ ∀ x ∈ l, r ≤ x := by
  induction l generalizing r with
  | nil => simp [listMin] at h
  | cons x xs ih =>
    simp only [listMin] at h
    cases hxs : listMin xs with
    | none =>
      rw [hxs] at h
      obtain rfl : x = r := by simpa using h
      have hnil : xs = [] := listMin_eq_none.mp hxs
      subst hnil
      simp
    | some y =>
      rw [hxs] at h
      obtain rfl : min x y = r := by simpa using h
      obtain ⟨hy_mem, hy_le⟩ := ih hxs
      constructor
      · rcases le_total x y with hxy | hxy
        · simp [min_eq_left hxy]
        · have := min_eq_right hxy
          rw [this]
          exact List.mem_cons_of_mem _ hy_mem
      · intro z hz
        rcases List.mem_cons.mp hz with rfl | hz'
        · exact min_le_left _ _
        · exact le_trans (min_le_right _ _) (hy_le _ hz')

theorem listMin_ne_none {l : List Int} (h : l ≠ []) : ∃ r, listMin l = some r := by
  cases hm : listMin l with
  | none => exact absurd (listMin_eq_none.mp hm) h
  | some r => exact ⟨r, rfl⟩

theorem chunk_pairs_flatten (ps : List (Int × Int)) :
    chunk_pairs (ps.flatMap (fun p => [p.1, p.2])) = some ps := by
  induction ps with
  | nil => simp [chunk_pairs]
  | cons p rest ih =>
    have hf : (p :: rest).flatMap (fun q => [q.1, q.2])
        = p.1 :: p.2 :: rest.flatMap (fun q => [q.1, q.2]) := by simp
    rw [hf]
    simp only [chunk_pairs, ih, Option.map_some']

theorem chunk_pairs_odd : ∀ l : List Int, l.length % 2 = 1 → chunk_pairs l = none := by
  intro l
  induction l using chunk_pairs.induct with
  | case1 => intro h; simp at h
  | case2 a => intro _; rfl
  | case3 a b rest ih =>
    intro h
    have hr : rest.length % 2 = 1 := by simp [List.length_cons] at h; omega
    simp [chunk_pairs, ih hr]

theorem mem_range_seeds {s n v : Int} : v ∈ range_seeds s n ↔ s ≤ v ∧ v < s + n := by
  unfold range_seeds
  rw [List.mem_map]
  constructor
  · rintro ⟨i, hi, rfl⟩
    rw [List.mem_range] at hi
    simp only [Int.ofNat_eq_coe]
    omega
  · rintro ⟨h1, h2⟩
    refine ⟨(v - s).toNat, ?_, ?_⟩
    · rw [List.mem_range]; omega
    · simp only [Int.ofNat_eq_coe]; omega

theorem range_seeds_ne_nil {s n : Int} (h : 0 < n) : range_seeds s n ≠ [] := by
  intro hnil
  have : s ∈ range_seeds s n := mem_range_seeds.mpr ⟨le_refl s, by omega⟩
  rw [hnil] at this
  simp at this

theorem cacheLookup_mem {c : List (Int × Int)} {s w : Int}
    (h : cacheLookup c s = some w) : (s, w) ∈ c := by
  induction c with
  | nil => simp [cacheLookup] at h
  | cons p rest ih =>
    obtain ⟨k, v⟩ := p
    simp only [cacheLookup] at h
    by_cases hk : k = s
    · rw [if_pos hk] at h
      obtain rfl := hk
      obtain rfl : v = w := by simpa using h
      simp
    · rw [if_neg hk] at h
      exact List.mem_cons_of_mem _ (ih h)

/-! ## The category tree: contents, BST invariant, and lookup correctness -/

namespace CategoryTree

theorem add_mapping_toList_perm (t : CategoryTree) (m : Mapping) :
    List.Perm (t.add_mapping m).toList (m :: t.toList) := by
  induction t with
  | leaf => simp [add_mapping, toList]
  | node l m0 r ihl ihr =>
    by_cases h : m.start < m0.start
    · simp only [add_mapping, if_pos h, toList]
      exact ihl.append_right (m0 :: r.toList)
    · simp only [add_mapping, if_neg h, toList]
      have h1 : List.Perm (l.toList ++ m0 :: (r.add_mapping m).toList)
          (l.toList ++ m0 :: m :: r.toList) :=
        List.Perm.append_left _ (ihr.cons m0)
      refine h1.trans ?_
      have h3 : l.toList ++ m0 :: m :: r.toList = (l.toList ++ [m0]) ++ m :: r.toList := by
        simp
      have h4 : (l.toList ++ [m0]) ++ r.toList = l.toList ++ m0 :: r.toList := by simp
      rw [h3]
      have h5 := @List.perm_middle Mapping m (l.toList ++ [m0]) r.toList
      rw [h4] at h5
      exact h5

theorem mem_add_mapping {t : CategoryTree} {m x : Mapping} :
    x ∈ (t.add_mapping m).toList ↔ x = m ∨ x ∈ t.toList := by
  rw [(add_mapping_toList_perm t m).mem_iff, List.mem_cons]

theorem add_mapping_BST {t : CategoryTree} (m : Mapping) (h : t.BST) :
    (t.add_mapping m).BST := by
  induction t with
  | leaf => simp [add_mapping, BST, toList]
  | node l m0 r ihl ihr =>
    obtain ⟨hkl, hkr, hbl, hbr⟩ := h
    by_cases hlt : m.start < m0.start
    · simp only [add_mapping, if_pos hlt, BST]
      refine ⟨?_, hkr, ihl hbl, hbr⟩
      intro x hx
      rcases mem_add_mapping.mp hx with rfl | hx'
      · exact hlt
      · exact hkl x hx'
    · simp only [add_mapping, if_neg hlt, BST]
      refine ⟨hkl, ?_, hbl, ihr hbr⟩
      intro x hx
      rcases mem_add_mapping.mp hx with rfl | hx'
      · exact not_lt.mp hlt
      · exact hkr x hx'

theorem foldl_add_mapping_BST (ms : List Mapping) (t : CategoryTree) (h : t.BST) :
    (ms.foldl add_mapping t).BST := by
  induction ms generalizing t with
  | nil => exact h
  | cons m rest ih => exact ih _ (add_mapping_BST m h)

theorem build_BST (ms : List Mapping) : (build ms).BST :=
  foldl_add_mapping_BST ms leaf trivial

theorem foldl_add_mapping_toList_perm (ms : List Mapping) (t : CategoryTree) :
    List.Perm (ms.foldl add_mapping t).toList (ms ++ t.toList) := by
  induction ms generalizing t with
  | nil => simp [List.foldl]
  | cons m rest ih =>
    refine (ih (t.add_mapping m)).trans ?_
    have h1 : List.Perm (rest ++ (t.add_mapping m).toList) (rest ++ m :: t.toList) :=
      List.Perm.append_left rest (add_mapping_toList_perm t m)
    exact h1.trans (@List.perm_middle Mapping m rest t.toList)

/-- Building a tree never fails and records exactly the supplied mappings:
`add_mapping` performs no validation of any kind. -/
theorem build_toList_perm (ms : List Mapping) : List.Perm (build ms).toList ms := by
  have h := foldl_add_mapping_toList_perm ms leaf
  simpa [toList] using h

theorem map_of_not_containsPt {t : CategoryTree} {v : Int}
    (h : ∀ m ∈ t.toList, ¬ m.containsPt v) : t.map v = v := by
  induction t with
  | leaf => rfl
  | node l m r ihl ihr =>
    have hm : ¬ m.containsPt v := h m (by simp [toList])
    simp only [map, if_neg hm]
    by_cases h1 : v < m.start
    · rw [if_pos h1]
      exact ihl (fun x hx => h x (by simp [toList, hx]))
    · rw [if_neg h1]
      by_cases h2 : m.start < v
      · rw [if_pos h2]
        exact ihr (fun x hx => h x (by simp [toList, hx]))
      · rw [if_neg h2]

theorem map_of_containsPt {t : CategoryTree} {v : Int} {m : Mapping}
    (hbst : t.BST) (hpos : ∀ x ∈ t.toList, x.posLen)
    (hdis : t.toList.Pairwise DisjointM)
    (hm : m ∈ t.toList) (hc : m.containsPt v) :
    t.map v = m.dest + v - m.start := by
  induction t with
  | leaf => simp [toList] at hm
  | node l m0 r ihl ihr =>
    obtain ⟨hkl, hkr, hbl, hbr⟩ := hbst
    rw [toList] at hpos hdis hm
    rw [List.pairwise_append] at hdis
    obtain ⟨hdl, hdcr, hcross⟩ := hdis
    rw [List.pairwise_cons] at hdcr
    obtain ⟨hm0r, hdr⟩ := hdcr
    have hpos0 : m0.posLen := hpos m0 (by simp)
    have hposl : ∀ x ∈ l.toList, x.posLen := fun x hx => hpos x (by simp [hx])
    have hposr : ∀ x ∈ r.toList, x.posLen := fun x hx => hpos x (by simp [hx])
    by_cases hc0 : m0.containsPt v
    · have hmm0 : m = m0 := by
        rcases List.mem_append.mp hm with hml | hmr
        · exfalso
          have hd := hcross m hml m0 (by simp)
          obtain ⟨hc1, hc2⟩ := hc
          obtain ⟨hc3, hc4⟩ := hc0
          rcases hd with hd | hd
          · exact absurd (lt_of_lt_of_le hc2 hd) (not_lt.mpr hc3)
          · exact absurd (lt_of_lt_of_le hc4 hd) (not_lt.mpr hc1)
        · rcases List.mem_cons.mp hmr with rfl | hmr'
          · rfl
          · exfalso
            have hd := hm0r m hmr'
            obtain ⟨hc1, hc2⟩ := hc
            obtain ⟨hc3, hc4⟩ := hc0
            rcases hd with hd | hd
            · exact absurd (lt_of_lt_of_le hc4 hd) (not_lt.mpr hc1)
            · exact absurd (lt_of_lt_of_le hc2 hd) (not_lt.mpr hc3)
      subst hmm0
      simp [map, if_pos hc0]
    · simp only [map, if_neg hc0]
      by_cases h1 : v < m0.start
      · rw [if_pos h1]
        have hml : m ∈ l.toList := by
          rcases List.mem_append.mp hm with h' | h'
          · exact h'
          · exfalso
            rcases List.mem_cons.mp h' with rfl | h''
            · exact hc0 hc
            · have hk := hkr m h''
              obtain ⟨hc1, _⟩ := hc
              exact absurd (lt_of_le_of_lt hc1 h1) (not_lt.mpr hk)
        exact ihl hbl hposl hdl hml
      · rw [if_neg h1]
        have h2 : m0.start < v := by
          rcases lt_or_eq_of_le (not_lt.mp h1) with h' | h'
          · exact h'
          · exfalso
            apply hc0
            refine ⟨le_of_eq h', ?_⟩
            rw [← h']
            exact hpos0
        rw [if_pos h2]
        have hstop0 : m0.stop ≤ v := by
          by_contra hlt
          exact hc0 ⟨le_of_lt h2, not_le.mp hlt⟩
        have hmr : m ∈ r.toList := by
          rcases List.mem_append.mp hm with h' | h'
          · exfalso
            have hd := hcross m h' m0 (by simp)
            have hk := hkl m h'
            obtain ⟨hc1, hc2⟩ := hc
            rcases hd with hd | hd
            · have : v < m0.start := lt_of_lt_of_le hc2 hd
              exact absurd (lt_trans h2 this) (lt_irrefl _)
            · have : m0.stop ≤ m.start := hd
              have : m0.start < m0.start := lt_of_lt_of_le hpos0 (le_trans hd (le_of_lt hk))
              exact absurd this (lt_irrefl _)
          · rcases List.mem_cons.mp h' with rfl | h''
            · exact absurd hc hc0
            · exact h''
        exact ihr hbr hposr hdr hmr

end CategoryTree

/-! ## The almanac: cache consistency and the query operations -/

namespace Almanac

theorem pureLocation_update (a : Almanac) (c : List (Int × Int)) :
    Almanac.pureLocation { a with seed_to_location := c } = a.pureLocation := rfl

theorem find_location_for_seed_spec {a : Almanac} (s : Int) (h : CacheOK a) :
    (a.find_location_for_seed s).1 = a.pureLocation s ∧
    ∃ c, (a.find_location_for_seed s).2 = { a with seed_to_location := c }
      ∧ CacheOK { a with seed_to_location := c } := by
  cases hl : cacheLookup a.seed_to_location s with
  | some w =>
    have h1 : a.find_location_for_seed s = (w, a) := by
      unfold find_location_for_seed
      rw [hl]
    rw [h1]
    exact ⟨h _ (cacheLookup_mem hl), a.seed_to_location, rfl, h⟩
  | none =>
    have h1 : a.find_location_for_seed s =
        (a.pureLocation s,
          { a with seed_to_location := (s, a.pureLocation s) :: a.seed_to_location }) := by
      unfold find_location_for_seed
      rw [hl]
      rfl
    rw [h1]
    refine ⟨rfl, (s, a.pureLocation s) :: a.seed_to_location, rfl, ?_⟩
    intro p hp
    rcases List.mem_cons.mp hp with rfl | hp'
    · rfl
    · exact h p hp'

theorem locations_for_seeds_spec (seeds : List Int) {a : Almanac} (h : CacheOK a) :
    (a.locations_for_seeds seeds).1 = seeds.map a.pureLocation ∧
    ∃ c, (a.locations_for_seeds seeds).2 = { a with seed_to_location := c }
      ∧ CacheOK { a with seed_to_location := c } := by
  induction seeds generalizing a with
  | nil => exact ⟨rfl, a.seed_to_location, rfl, h⟩
  | cons s rest ih =>
    obtain ⟨h1, c, h2, h3⟩ := find_location_for_seed_spec s h
    have e1 : a.locations_for_seeds (s :: rest) =
        ((a.find_location_for_seed s).1 ::
            ((a.find_location_for_seed s).2.locations_for_seeds rest).1,
          ((a.find_location_for_seed s).2.locations_for_seeds rest).2) := rfl
    rw [e1, h1, h2]
    obtain ⟨h4, c2, h5, h6⟩ := ih h3
    rw [h4, h5, pureLocation_update]
    exact ⟨rfl, c2, rfl, h6⟩

end Almanac

/-! ## Coverage of the spec-modelled range splitting -/

theorem split_pieces_count (ivs : List SpecInterval) (s n v : Int) :
    (split_pieces ivs s n).countP (fun p => decide (p.1 ≤ v ∧ v < p.1 + p.2.1))
      = if s ≤ v ∧ v < s + n then 1 else 0 := by
  induction ivs generalizing s n with
  | nil => simp [split_pieces, List.countP_cons]
  | cons iv rest ih =>
    simp only [split_pieces]
    by_cases h : max s iv.start < min (s + n) (iv.start + iv.len)
    · rw [if_pos h]
      rw [List.countP_append, List.countP_cons, ih, ih]
      have h1 : s ≤ max s iv.start := le_max_left _ _
      have h2 : min (s + n) (iv.start + iv.len) ≤ s + n := min_le_left _ _
      simp only [decide_eq_true_eq]
      split_ifs <;> omega
    · rw [if_neg h]
      exact ih s n

/-! ## Shared helper lemmas for the claim theorems -/

theorem disjointM_symm : Symmetric DisjointM := by
  intro a b h
  unfold DisjointM at *
  tauto

theorem build_pairwise_disjoint {ms : List Mapping} (hdis : ms.Pairwise DisjointM) :
    (CategoryTree.build ms).toList.Pairwise DisjointM :=
  ((CategoryTree.build_toList_perm ms).pairwise_iff
    (fun hab => disjointM_symm hab)).mpr hdis

theorem build_map_of_containsPt {ms : List Mapping} {v : Int} {m : Mapping}
    (hdis : ms.Pairwise DisjointM) (hpos : ∀ x ∈ ms, x.posLen)
    (hm : m ∈ ms) (hc : m.containsPt v) :
    (CategoryTree.build ms).map v = m.dest + v - m.start := by
  have hperm := CategoryTree.build_toList_perm ms
  exact CategoryTree.map_of_containsPt (CategoryTree.build_BST ms)
    (fun x hx => hpos x (hperm.mem_iff.mp hx)) (build_pairwise_disjoint hdis)
    (hperm.mem_iff.mpr hm) hc

theorem build_map_of_not_containsPt {ms : List Mapping} {v : Int}
    (h : ∀ m ∈ ms, ¬ m.containsPt v) :
    (CategoryTree.build ms).map v = v :=
  CategoryTree.map_of_not_containsPt
    (fun m hm => h m ((CategoryTree.build_toList_perm ms).mem_iff.mp hm))

theorem range_seeds_one (v : Int) : range_seeds v 1 = [v] := by
  have h1 : (1 : Int).toNat = 1 := rfl
  simp [range_seeds, h1, List.range_succ]

theorem range_seeds_eq_nil {s n : Int} : range_seeds s n = [] ↔ n ≤ 0 := by
  simp only [range_seeds, List.map_eq_nil_iff, List.range_eq_nil]
  omega

theorem locations_for_seeds_eq_nil (a : Almanac) (l : List Int) :
    (a.locations_for_seeds l).1 = [] ↔ l = [] := by
  cases l <;> simp [Almanac.locations_for_seeds]

theorem flatMap_map_eq {α β γ : Type} (l : List α) (f : α → β) (g : β → List γ) :
    (l.map f).flatMap g = l.flatMap (fun x => g (f x)) := by
  induction l with
  | nil => rfl
  | cons x xs ih => simp [List.flatMap_cons, ih]

/-! ## Claim theorems -/

/-- Claim C2: for a stage built from pairwise-disjoint, positive-length
mappings, the point lookup `map` returns `v + (destination_start -
source_start)` of the unique mapping whose source interval contains `v`
(which, the interval being `[start, stop)` and the destination start `d`,
is the value `d + v - start`), and returns `v` unchanged when no mapping's
source interval contains `v` (identity fallback). -/
theorem c2_point_lookup (ms : List Mapping) (v : Int)
    (hdis : ms.Pairwise DisjointM) (hpos : ∀ m ∈ ms, m.posLen) :
    (∀ m ∈ ms, m.containsPt v →
        (CategoryTree.build ms).map v = m.dest + v - m.start)
    ∧ ((∀ m ∈ ms, ¬ m.containsPt v) → (CategoryTree.build ms).map v = v) :=
  ⟨fun m hm hc => build_map_of_containsPt hdis hpos hm hc,
   fun h => build_map_of_not_containsPt h⟩

/-- Witness for C2 at the stage `{[10, 20) ↦ dest 15}` and the points
`12` (inside, mapped to `15 + 12 - 10 = 17`) and `25` (outside, identity). -/
theorem c2_point_lookup_witness :
    (CategoryTree.build [⟨10, 20, 15⟩]).map 12 = (15 : Int) + 12 - 10
    ∧ (CategoryTree.build [⟨10, 20, 15⟩]).map 25 = 25 :=
  ⟨(c2_point_lookup [⟨10, 20, 15⟩] 12 (by decide) (by decide)).1
      ⟨10, 20, 15⟩ (by decide) (by decide),
   (c2_point_lookup [⟨10, 20, 15⟩] 25 (by decide) (by decide)).2 (by decide)⟩

/-- Claim C10: over pairwise-disjoint, positive-length mappings, the value
of `map` does not depend on the order in which the mappings were inserted
with `add_mapping`, although the resulting tree shapes differ. -/
theorem c10_insertion_order (ms ms' : List Mapping) (v : Int)
    (hperm : List.Perm ms ms') (hdis : ms.Pairwise DisjointM)
    (hpos : ∀ m ∈ ms, m.posLen) :
    (CategoryTree.build ms).map v = (CategoryTree.build ms').map v := by
  have hdis' : ms'.Pairwise DisjointM :=
    (hperm.pairwise_iff (fun hab => disjointM_symm hab)).mp hdis
  have hpos' : ∀ m ∈ ms', m.posLen := fun m hm => hpos m (hperm.mem_iff.mpr hm)
  by_cases h : ∃ m ∈ ms, m.containsPt v
  · obtain ⟨m, hm, hc⟩ := h
    rw [build_map_of_containsPt hdis hpos hm hc,
      build_map_of_containsPt hdis' hpos' (hperm.mem_iff.mp hm) hc]
  · push_neg at h
    rw [build_map_of_not_containsPt h,
      build_map_of_not_containsPt (fun m hm => h m (hperm.mem_iff.mpr hm))]

/-- Witness for C10: the two insertion orders of `{[0, 5) ↦ dest 100,
[10, 20) ↦ dest 0}` produce mirror-image trees, yet agree at the point 12. -/
theorem c10_insertion_order_witness :
    (CategoryTree.build [⟨0, 5, 100⟩, ⟨10, 20, 0⟩]).map 12 =
      (CategoryTree.build [⟨10, 20, 0⟩, ⟨0, 5, 100⟩]).map 12 :=
  c10_insertion_order [⟨0, 5, 100⟩, ⟨10, 20, 0⟩] [⟨10, 20, 0⟩, ⟨0, 5, 100⟩] 12
    (by decide) (by decide) (by decide)

/-- Claim C5 (counterexample): building a stage from the two overlapping
tuples `(0, 10, dest 0)` and `(5, 10, dest 100)` (source intervals
`[0, 10)` and `[5, 15)`) does not raise anything: `add_mapping` has no
validation and no `MalformedMappingError` exists anywhere in the code, so
the tree is constructed and is usable for queries. -/
theorem c5_counterexample :
    CategoryTree.build [⟨0, 10, 0⟩, ⟨5, 15, 100⟩] =
      CategoryTree.node .leaf ⟨0, 10, 0⟩ (CategoryTree.node .leaf ⟨5, 15, 100⟩ .leaf)
    ∧ (CategoryTree.build [⟨0, 10, 0⟩, ⟨5, 15, 100⟩]).map 12 = 107 := by
  decide

/-- Claim C5 (amended): building a stage never fails: `add_mapping`
performs no overlap or length validation, and the constructed tree
contains exactly the supplied mappings, whatever they are. -/
theorem c5_build_never_fails (ms : List Mapping) :
    List.Perm (CategoryTree.build ms).toList ms :=
  CategoryTree.build_toList_perm ms

/-- Claim C9: on a seeds list of odd length the range-mode query dies with
an unhandled exception (the final one-element chunk cannot be unpacked
into a `(start, size)` pair), modelled by the `none` result. -/
theorem c9_odd_seed_list (a : Almanac) (seeds : List Int)
    (hodd : seeds.length % 2 = 1) :
    a.find_lowest_location_number_for_seed_ranges seeds = none := by
  unfold Almanac.find_lowest_location_number_for_seed_ranges
  rw [chunk_pairs_odd seeds hodd]

/-- Witness for C9 at the three-element seeds list `[1, 2, 3]`. -/
theorem c9_odd_seed_list_witness :
    (mkAlmanac .leaf .leaf .leaf .leaf .leaf .leaf
        .leaf).find_lowest_location_number_for_seed_ranges [1, 2, 3] = none :=
  c9_odd_seed_list _ [1, 2, 3] (by decide)

/-- Claim C3: on any almanac whose memo cache is consistent — as every
almanac reachable from `__init__` is, the cache starting empty and only
ever receiving computed results — `find_location_for_seed` returns the
seed folded left-to-right through the seven stage maps in their fixed
order: seed→soil→fertilizer→water→light→temperature→humidity→location. -/
theorem c3_point_query_fold (a : Almanac) (seed : Int) (h : a.CacheOK) :
    (a.find_location_for_seed seed).1 =
      a.humidity_to_location.map
        (a.temperature_to_humidity.map
          (a.light_to_temperature.map
            (a.water_to_light.map
              (a.fertilizer_to_water.map
                (a.soil_to_fertilizer.map
                  (a.seed_to_soil.map seed)))))) :=
  (Almanac.find_location_for_seed_spec seed h).1

/-- Witness for C3 on a freshly built almanac of empty stage maps at seed 3. -/
theorem c3_point_query_fold_witness :
    ((mkAlmanac .leaf .leaf .leaf .leaf .leaf .leaf .leaf).find_location_for_seed 3).1 =
      CategoryTree.leaf.map (CategoryTree.leaf.map (CategoryTree.leaf.map
        (CategoryTree.leaf.map (CategoryTree.leaf.map (CategoryTree.leaf.map
          (CategoryTree.leaf.map 3)))))) :=
  c3_point_query_fold (mkAlmanac .leaf .leaf .leaf .leaf .leaf .leaf .leaf) 3
    (by intro p hp; simp [mkAlmanac] at hp)

theorem find_lowest_individual_eq (a : Almanac) (vs : List Int) :
    a.find_lowest_location_number_for_individual_seeds vs =
      (listMin (a.locations_for_seeds vs).1, (a.locations_for_seeds vs).2) := rfl

theorem find_lowest_ranges_eq (a : Almanac) {seeds : List Int} {ps : List (Int × Int)}
    (hc : chunk_pairs seeds = some ps) :
    a.find_lowest_location_number_for_seed_ranges seeds =
      some (listMin (a.locations_for_seeds
              (ps.flatMap (fun p => range_seeds p.1 p.2))).1,
            (a.locations_for_seeds (ps.flatMap (fun p => range_seeds p.1 p.2))).2) := by
  unfold Almanac.find_lowest_location_number_for_seed_ranges
  rw [hc]

/-- Claim C4: on every almanac, the point-mode minimum query on a list of
values returns exactly what the range-mode minimum query returns on the
same values flattened into `(v, 1)` singleton pairs — result and final
cache state alike (in particular the range-mode call raises nothing). -/
theorem c4_point_range_equivalence (a : Almanac) (vs : List Int) (hne : vs ≠ []) :
    a.find_lowest_location_number_for_seed_ranges (vs.flatMap (fun v => [v, 1])) =
      some (a.find_lowest_location_number_for_individual_seeds vs) := by
  have h1 : vs.flatMap (fun v => [v, (1 : Int)]) =
      (vs.map (fun v => (v, (1 : Int)))).flatMap (fun p => [p.1, p.2]) := by
    rw [flatMap_map_eq]
  have h2 : chunk_pairs (vs.flatMap (fun v => [v, 1])) =
      some (vs.map (fun v => (v, 1))) := by
    rw [h1, chunk_pairs_flatten]
  rw [find_lowest_ranges_eq a h2]
  have h3 : (vs.map (fun v => (v, (1 : Int)))).flatMap
      (fun p => range_seeds p.1 p.2) = vs := by
    rw [flatMap_map_eq]
    simp [range_seeds_one]
  rw [h3, find_lowest_individual_eq]

/-- Witness for C4 on a trivial almanac and the value list `[4]`. -/
theorem c4_point_range_equivalence_witness :
    (mkAlmanac .leaf .leaf .leaf .leaf .leaf .leaf
        .leaf).find_lowest_location_number_for_seed_ranges
          (([4] : List Int).flatMap (fun v => [v, 1])) =
      some ((mkAlmanac .leaf .leaf .leaf .leaf .leaf .leaf
        .leaf).find_lowest_location_number_for_individual_seeds [4]) :=
  c4_point_range_equivalence _ [4] (by decide)

/-- Claim C6 (counterexample): the range-mode query called with the pairs
`(7, 1)` and `(5, 0)` — the second of non-positive length — raises
nothing at all: the empty `range(5, 5)` is silently skipped and the
minimum `7` is returned (no `EmptyInputError` exists in the code). -/
theorem c6_counterexample :
    (mkAlmanac .leaf .leaf .leaf .leaf .leaf .leaf
        .leaf).find_lowest_location_number_for_seed_ranges [7, 1, 5, 0] =
      some (some 7, ⟨.leaf, .leaf, .leaf, .leaf, .leaf, .leaf, .leaf, [(7, 7)]⟩) := by
  decide

/-- Claim C6 (amended): the point-mode query fails — an unhandled built-in
`ValueError` from `min` on an empty generator, not an `EmptyInputError`,
which the code never defines — exactly when the values list is empty; the
range-mode query on a well-paired input fails exactly when every declared
`(start, length)` range is empty, i.e. when all lengths are non-positive
(a single non-positive length alongside a non-empty range raises nothing). -/
theorem c6_empty_input (a : Almanac) (vs seeds : List Int) (ps : List (Int × Int))
    (hc : chunk_pairs seeds = some ps) :
    ((a.find_lowest_location_number_for_individual_seeds vs).1 = none ↔ vs = [])
    ∧ ∃ r a2, a.find_lowest_location_number_for_seed_ranges seeds = some (r, a2)
        ∧ (r = none ↔ ∀ p ∈ ps, p.2 ≤ 0) := by
  constructor
  · rw [find_lowest_individual_eq, listMin_eq_none, locations_for_seeds_eq_nil]
  · rw [find_lowest_ranges_eq a hc]
    refine ⟨_, _, rfl, ?_⟩
    rw [listMin_eq_none, locations_for_seeds_eq_nil, List.flatMap_eq_nil_iff]
    constructor
    · intro h p hp
      exact range_seeds_eq_nil.mp (h p hp)
    · intro h p hp
      exact range_seeds_eq_nil.mpr (h p hp)

/-- Witness for C6 (amended) at the empty values list and the ranges input
`[5, 0]`, a single pair of length zero: the point query yields `none` and
the range query yields `some none` (both `ValueError`s in Python). -/
theorem c6_empty_input_witness :
    (((mkAlmanac .leaf .leaf .leaf .leaf .leaf .leaf
          .leaf).find_lowest_location_number_for_individual_seeds []).1 = none ↔
        ([] : List Int) = [])
    ∧ ∃ r a2, (mkAlmanac .leaf .leaf .leaf .leaf .leaf .leaf
          .leaf).find_lowest_location_number_for_seed_ranges [5, 0] = some (r, a2)
        ∧ (r = none ↔ ∀ p ∈ [((5 : Int), (0 : Int))], p.2 ≤ 0) :=
  c6_empty_input _ [] [5, 0] [(5, 0)] (by decide)

/-- Claim C7 (counterexample): querying a freshly built almanac for seed 0
changes the almanac: `find_location_for_seed` writes the computed location
into the `seed_to_location` memo dict, so queries do mutate the almanac. -/
theorem c7_counterexample :
    ((mkAlmanac .leaf .leaf .leaf .leaf .leaf .leaf
        .leaf).find_location_for_seed 0).2 ≠
      mkAlmanac .leaf .leaf .leaf .leaf .leaf .leaf .leaf := by
  decide

/-- Claim C7 (amended): every query is deterministic and mutates nothing
but the `seed_to_location` memo cache — the result almanac is the input
almanac with only that field changed, so the seven stage maps are never
touched — and on any almanac with a consistent cache (all reachable ones,
the cache starting empty) the returned values are the pure function of
the stage maps and the input that the spec describes. -/
theorem c7_queries_mutate_only_cache (a : Almanac) (seed : Int) (vs seeds : List Int)
    (h : a.CacheOK) :
    ((a.find_location_for_seed seed).1 = a.pureLocation seed
      ∧ ∃ c, (a.find_location_for_seed seed).2 = { a with seed_to_location := c }
          ∧ Almanac.CacheOK { a with seed_to_location := c })
    ∧ ((a.find_lowest_location_number_for_individual_seeds vs).1
          = listMin (vs.map a.pureLocation)
      ∧ ∃ c, (a.find_lowest_location_number_for_individual_seeds vs).2
            = { a with seed_to_location := c }
          ∧ Almanac.CacheOK { a with seed_to_location := c })
    ∧ (∀ r a2, a.find_lowest_location_number_for_seed_ranges seeds = some (r, a2) →
        ∃ c, a2 = { a with seed_to_location := c }
          ∧ Almanac.CacheOK { a with seed_to_location := c }) := by
  refine ⟨Almanac.find_location_for_seed_spec seed h, ?_, ?_⟩
  · obtain ⟨h1, c, h2, h3⟩ := Almanac.locations_for_seeds_spec vs h
    rw [find_lowest_individual_eq, h1, h2]
    exact ⟨rfl, c, rfl, h3⟩
  · intro r a2 heq
    cases hc : chunk_pairs seeds with
    | none =>
      rw [Almanac.find_lowest_location_number_for_seed_ranges, hc] at heq
      exact absurd heq (by simp)
    | some ps =>
      rw [find_lowest_ranges_eq a hc] at heq
      obtain ⟨h1, c, h2, h3⟩ :=
        Almanac.locations_for_seeds_spec (ps.flatMap (fun p => range_seeds p.1 p.2)) h
      refine ⟨c, ?_, h3⟩
      have := (Option.some.injEq _ _).mp heq
      rw [← h2, ← (Prod.mk.injEq _ _ _ _).mp this |>.2]

/-- Witness for C7 (amended): on a fresh trivial almanac, the single-seed
query at 0 returns the pure seven-stage fold. -/
theorem c7_queries_mutate_only_cache_witness :
    ((mkAlmanac .leaf .leaf .leaf .leaf .leaf .leaf .leaf).find_location_for_seed 0).1 =
      (mkAlmanac .leaf .leaf .leaf .leaf .leaf .leaf .leaf).pureLocation 0 :=
  (c7_queries_mutate_only_cache (mkAlmanac .leaf .leaf .leaf .leaf .leaf .leaf .leaf)
    0 [] [] (by intro p hp; simp [mkAlmanac] at hp)).1.1

/-- Claim C1: for every constructed almanac and every non-empty list of
`(start, length)` pairs with positive lengths (passed flattened, as the
code receives them), the range-mode query returns `some` of the minimum,
over every seed `v` in the union of the half-open ranges
`[start, start + length)`, of `v` pushed through all seven stages. -/
theorem c1_range_minimum (t1 t2 t3 t4 t5 t6 t7 : CategoryTree)
    (ps : List (Int × Int)) (hne : ps ≠ []) (hpos : ∀ p ∈ ps, 0 < p.2) :
    ∃ r a2,
      (mkAlmanac t1 t2 t3 t4 t5 t6 t7).find_lowest_location_number_for_seed_ranges
          (ps.flatMap (fun p => [p.1, p.2])) = some (some r, a2)
      ∧ (∃ v, (∃ p ∈ ps, p.1 ≤ v ∧ v < p.1 + p.2)
            ∧ r = (mkAlmanac t1 t2 t3 t4 t5 t6 t7).pureLocation v)
      ∧ ∀ v, (∃ p ∈ ps, p.1 ≤ v ∧ v < p.1 + p.2) →
            r ≤ (mkAlmanac t1 t2 t3 t4 t5 t6 t7).pureLocation v := by
  have hok : (mkAlmanac t1 t2 t3 t4 t5 t6 t7).CacheOK := by
    intro p hp
    simp [mkAlmanac] at hp
  obtain ⟨hlocs, c, hsnd, _⟩ := Almanac.locations_for_seeds_spec
    (ps.flatMap (fun p => range_seeds p.1 p.2)) hok
  have hne2 : ps.flatMap (fun p => range_seeds p.1 p.2) ≠ [] := by
    intro hnil
    rw [List.flatMap_eq_nil_iff] at hnil
    cases ps with
    | nil => exact hne rfl
    | cons p rest =>
      exact range_seeds_ne_nil (hpos p (by simp)) (hnil p (by simp))
  have hlocs_ne :
      ((mkAlmanac t1 t2 t3 t4 t5 t6 t7).locations_for_seeds
        (ps.flatMap (fun p => range_seeds p.1 p.2))).1 ≠ [] := by
    rw [Ne, locations_for_seeds_eq_nil]
    exact hne2
  obtain ⟨r, hr⟩ := listMin_ne_none hlocs_ne
  obtain ⟨hrmem, hrle⟩ := listMin_spec hr
  refine ⟨r, ((mkAlmanac t1 t2 t3 t4 t5 t6 t7).locations_for_seeds
    (ps.flatMap (fun p => range_seeds p.1 p.2))).2, ?_, ?_, ?_⟩
  · rw [find_lowest_ranges_eq _ (chunk_pairs_flatten ps), hr]
  · rw [hlocs] at hrmem
    obtain ⟨v, hv, hveq⟩ := List.mem_map.mp hrmem
    obtain ⟨p, hp, hvp⟩ := List.mem_flatMap.mp hv
    exact ⟨v, ⟨p, hp, mem_range_seeds.mp hvp⟩, hveq.symm⟩
  · intro v hv
    apply hrle
    rw [hlocs]
    refine List.mem_map.mpr ⟨v, ?_, rfl⟩
    obtain ⟨p, hp, hvp⟩ := hv
    exact List.mem_flatMap.mpr ⟨p, hp, mem_range_seeds.mpr hvp⟩

/-- Witness for C1 on a trivial almanac (all stages identity) and the
single range `(5, 2)` covering `{5, 6}`. -/
theorem c1_range_minimum_witness :
    ∃ r a2,
      (mkAlmanac .leaf .leaf .leaf .leaf .leaf .leaf
          .leaf).find_lowest_location_number_for_seed_ranges
          (([((5 : Int), (2 : Int))]).flatMap (fun p => [p.1, p.2])) = some (some r, a2)
      ∧ (∃ v, (∃ p ∈ [((5 : Int), (2 : Int))], p.1 ≤ v ∧ v < p.1 + p.2)
            ∧ r = (mkAlmanac .leaf .leaf .leaf .leaf .leaf .leaf .leaf).pureLocation v)
      ∧ ∀ v, (∃ p ∈ [((5 : Int), (2 : Int))], p.1 ≤ v ∧ v < p.1 + p.2) →
            r ≤ (mkAlmanac .leaf .leaf .leaf .leaf .leaf .leaf .leaf).pureLocation v :=
  c1_range_minimum .leaf .leaf .leaf .leaf .leaf .leaf .leaf [(5, 2)]
    (by decide) (by decide)

/-- Claim C8 (spec-modelled): for any stage's interval list and any input
range `[s, s + n)`, every integer of the input range lies in exactly one
pre-image piece produced by the range splitting, and every integer outside
it lies in none — the union of the pre-images of `map_ranges`'s outputs is
exactly the input range, with no value gained, lost, or duplicated, also
when the input straddles several intervals; and `map_ranges` emits
precisely those pieces, each shifted by its offset. -/
theorem c8_coverage_invariant (ivs : List SpecInterval) (s n v : Int) :
    ((split_pieces ivs s n).countP (fun p => decide (p.1 ≤ v ∧ v < p.1 + p.2.1))
        = if s ≤ v ∧ v < s + n then 1 else 0)
    ∧ map_ranges ivs [(s, n)] =
        (split_pieces ivs s n).map (fun p => (p.1 + p.2.2, p.2.1)) := by
  refine ⟨split_pieces_count ivs s n v, ?_⟩
  simp [map_ranges]
